import Mathlib

/-!
Verification of the computational core of `bank_balance.py`.

The development shallowly embeds the pieces of the program that the
specification talks about:

* a proleptic-Gregorian calendar (`Date`, `nextDay`, `addDays`, `Date.ord`)
  modelling Python `datetime` dates as used by the script;
* `generate_recurring_events` (lines 32-54 of the source): the fuel-indexed
  loop `genAux` models the `while current <= end_date` loop, `advance`
  models the body's four frequency branches, and `pyReplace` models
  Python's validating `date.replace` (returning a `ValueError` when the
  assembled date is invalid).  An exhausted fuel (`none`) models
  non-termination of the loop;
* `project_balance` (lines 56-69): `dateRange` models
  `pd.date_range(start, end)`, `netAmount` models the per-day
  `groupby("date").sum()` followed by the left merge with `fillna(0)`,
  and `projectAux` models the cumulative sum of the amount column;
* the min-balance health flag (lines 222-226), the delete handlers
  (lines 125-127 and 140-142) and the bill amount coercion at the add
  boundary (lines 86-87, 92-104).

Amounts are modelled as integers (the spec's "signed decimal" at the
level of exact arithmetic).
-/

/-- Gregorian leap-year test, as implemented by Python's `calendar.isleap`
and used by `datetime.date` validity checking. -/
def isLeap (y : Nat) : Bool :=
  decide (y % 4 = 0 ∧ (y % 100 ≠ 0 ∨ y % 400 = 0))

/-- Number of days in month `m` of year `y` (months are 1-based). -/
def daysInMonth (y m : Nat) : Nat :=
  if m = 2 then (if isLeap y then 29 else 28)
  else if m = 4 ∨ m = 6 ∨ m = 9 ∨ m = 11 then 30
  else 31

/-- A calendar date, modelling Python `datetime.date` / normalized pandas
timestamps (year, month, day). -/
structure Date where
  year : Nat
  month : Nat
  day : Nat
deriving DecidableEq

/-- Validity of a date: exactly the invariant maintained by
`datetime.date`. -/
def Date.valid (d : Date) : Prop :=
  1 ≤ d.year ∧ 1 ≤ d.month ∧ d.month ≤ 12 ∧ 1 ≤ d.day ∧ d.day ≤ daysInMonth d.year d.month

instance (d : Date) : Decidable d.valid := by
  unfold Date.valid
  infer_instance

/-- Lexicographic strict order on dates: Python's `<` on `datetime.date`. -/
def Date.lt (a b : Date) : Prop :=
  a.year < b.year ∨ (a.year = b.year ∧ (a.month < b.month ∨ (a.month = b.month ∧ a.day < b.day)))

/-- Lexicographic order on dates: Python's `<=` on `datetime.date`. -/
def Date.le (a b : Date) : Prop :=
  a.year < b.year ∨ (a.year = b.year ∧ (a.month < b.month ∨ (a.month = b.month ∧ a.day ≤ b.day)))

instance : LT Date := ⟨Date.lt⟩

instance : LE Date := ⟨Date.le⟩

instance (a b : Date) : Decidable (a < b) := by
  show Decidable (Date.lt a b)
  unfold Date.lt
  infer_instance

instance (a b : Date) : Decidable (a ≤ b) := by
  show Decidable (Date.le a b)
  unfold Date.le
  infer_instance

/-- Days in all years strictly before year `y` (year 1 is the first year),
as in CPython's `_days_before_year`. -/
def daysBeforeYear (y : Nat) : Nat :=
  365 * (y - 1) + (y - 1) / 4 + (y - 1) / 400 - (y - 1) / 100

/-- Days in all months of year `y` strictly before month `m`
(months 1-based), as in CPython's `_days_before_month`. -/
def daysBeforeMonth (y : Nat) : Nat → Nat
  | 0 => 0
  | m + 1 => daysBeforeMonth y m + (if m = 0 then 0 else daysInMonth y m)

/-- Rata-die style ordinal of a date (`datetime.date.toordinal`). -/
def Date.ord (d : Date) : Nat :=
  daysBeforeYear d.year + daysBeforeMonth d.year d.month + d.day

/-- Calendar successor of a date: `d + timedelta(days=1)`. -/
def nextDay (d : Date) : Date :=
  if d.day < daysInMonth d.year d.month then ⟨d.year, d.month, d.day + 1⟩
  else if d.month < 12 then ⟨d.year, d.month + 1, 1⟩
  else ⟨d.year + 1, 1, 1⟩

/-- Adding `n` days to a date: `d + timedelta(days=n)`. -/
def addDays (d : Date) : Nat → Date
  | 0 => d
  | n + 1 => nextDay (addDays d n)

/-- The daily grid `pd.date_range(s, e)`: every calendar day from `s` to
`e` inclusive (empty when `e` is before `s`). -/
def dateRange (s e : Date) : List Date :=
  (List.range (e.ord + 1 - s.ord)).map (addDays s)

/-- An expanded event: one dated amount row of the events DataFrame. -/
structure Event where
  date : Date
  amount : Int
deriving DecidableEq

/-- One row of the projected timeline DataFrame. -/
structure TLEntry where
  date : Date
  balance : Int
deriving DecidableEq

/-- Net amount of all events falling on day `d`: the
`groupby("date")["amount"].sum()` value for `d`, with the left-merge
`fillna(0)` default when no event falls on `d`. -/
def netAmount (events : List Event) (d : Date) : Int :=
  ((events.filter (fun ev => ev.date = d)).map Event.amount).sum

/-- Running cumulative sum over the day grid: models
`start_balance + timeline["amount"].cumsum()`. -/
def projectAux (events : List Event) : Int → List Date → List TLEntry
  | _, [] => []
  | bal, d :: ds => ⟨d, bal + netAmount events d⟩ :: projectAux events (bal + netAmount events d) ds

/-- `project_balance` of the source (lines 56-69): build the daily grid,
add each day's net event amount, and accumulate from `start_balance`. -/
def project_balance (start_balance : Int) (events : List Event) (start_date end_date : Date) :
    List TLEntry :=
  projectAux events start_balance (dateRange start_date end_date)

/-- Minimum of the balance column: `timeline["balance"].min()`
(`none` models pandas' NaN on an empty column). -/
def min_balance (timeline : List TLEntry) : Option Int :=
  (timeline.map TLEntry.balance).min?

/-- The negative-balance health flag of lines 222-226: true exactly when
`min_balance < 0` (NaN compares false in Python). -/
def negative_flag (timeline : List TLEntry) : Bool :=
  match min_balance timeline with
  | some m => decide (m < 0)
  | none => false

/-- Balance recorded by the timeline on day `d`, if `d` has a row. -/
def balanceOn (timeline : List TLEntry) (d : Date) : Option Int :=
  (timeline.find? (fun t => decide (t.date = d))).map TLEntry.balance

/-- The one kind of exception the expansion loop can raise. -/
inductive PyErr where
  | valueError
deriving DecidableEq

/-- Python's validating `date.replace`: assembles `(y, m, d)` and raises
`ValueError` when the result is not a valid date (or `y` is below
`MINYEAR`). -/
def pyReplace (y m d : Nat) : Except PyErr Date :=
  if 1 ≤ y ∧ 1 ≤ m ∧ m ≤ 12 ∧ 1 ≤ d ∧ d ≤ daysInMonth y m then Except.ok (⟨y, m, d⟩ : Date)
  else Except.error PyErr.valueError

/-- One advance of `current` by the body of the expansion loop
(lines 37-53).  `none` means no branch matched (unrecognized frequency,
so `current` is left unchanged); `some (Except.error _)` means the branch
raised `ValueError`. -/
def advance (freq : String) (current : Date) : Option (Except PyErr Date) :=
  if freq = "Daily" then some (Except.ok (nextDay current))
  else if freq = "Weekly" then some (Except.ok (addDays current 7))
  else if freq = "Monthly" then
    (if current.month = 12 then some (pyReplace (current.year + 1) 1 current.day)
     else some (pyReplace current.year (current.month + 1) current.day))
  else if freq = "Yearly" then
    some (match pyReplace (current.year + 1) current.month current.day with
          | Except.ok d => Except.ok d
          | Except.error _ => pyReplace (current.year + 1) 2 28)
  else none

/-- Fuel-indexed model of the `while current <= end_date` loop of
`generate_recurring_events`.  Returns the list of emitted dates together
with the exception that ended the loop (if any); `none` means the fuel ran
out, i.e. the loop performed at least `fuel` iterations. -/
def genAux (freq : String) (end_date : Date) : Nat → Date → Option (List Date × Option PyErr)
  | 0, _ => none
  | fuel + 1, current =>
    if current ≤ end_date then
      match advance freq current with
      | some (Except.ok next) => (genAux freq end_date fuel next).map (fun r => (current :: r.1, r.2))
      | some (Except.error pe) => some ([current], some pe)
      | none => (genAux freq end_date fuel current).map (fun r => (current :: r.1, r.2))
    else some ([], none)

/-- Fuel that provably suffices for every terminating run of the loop
(one iteration per day of the range, plus slack). -/
def genFuel (s e : Date) : Nat :=
  e.ord + 2 - s.ord + 1

/-- `generate_recurring_events` of the source (lines 32-54): the emitted
dates paired with the constant `amount` column, plus the exception that
ended the loop (if any); `none` models a non-terminating loop. -/
def generate_recurring_events (start_date end_date : Date) (amount : Int) (freq : String) :
    Option (List Event × Option PyErr) :=
  (genAux freq end_date (genFuel start_date end_date) start_date).map
    (fun r => (r.1.map (fun d => (⟨d, amount⟩ : Event)), r.2))

/-- The four frequency strings recognized by the loop. -/
def knownFreq (freq : String) : Prop :=
  freq = "Daily" ∨ freq = "Weekly" ∨ freq = "Monthly" ∨ freq = "Yearly"

instance (freq : String) : Decidable (knownFreq freq) := by
  unfold knownFreq
  infer_instance

/-- A stored recurring cash-flow declaration. -/
structure Declaration where
  name : String
  amount : Int
  frequency : String
  start_date : Date
  end_date : Date
deriving DecidableEq

/-- The delete handlers (lines 126 and 141):
`[b for b in coll if b["name"] != remove]`. -/
def remove_declaration (coll : List Declaration) (nm : String) : List Declaration :=
  coll.filter (fun b => decide (b.name ≠ nm))

/-- Bill amount coercion at the add boundary (lines 86-87):
`if flow_type == "Bill (expense)" and amount > 0: amount = -abs(amount)`. -/
def coerce_amount (flow_type : String) (amount : Int) : Int :=
  if flow_type = "Bill (expense)" ∧ 0 < amount then -(abs amount) else amount

/-- The Add button handler (lines 92-104): build the entry from the
coerced amount and append it to the collection selected by `flow_type`. -/
def add_entry (bills income : List Declaration) (flow_type nm : String) (amount : Int)
    (freq : String) (sd ed : Date) : List Declaration × List Declaration :=
  let entry : Declaration := ⟨nm, coerce_amount flow_type amount, freq, sd, ed⟩
  if flow_type = "Bill (expense)" then (bills ++ [entry], income) else (bills, income ++ [entry])

/-- The concrete expansion of the C8 scenario's bill declaration. -/
def scenarioEvents : List Event :=
  [⟨⟨2025, 1, 1⟩, -50⟩, ⟨⟨2025, 2, 1⟩, -50⟩, ⟨⟨2025, 3, 1⟩, -50⟩, ⟨⟨2025, 4, 1⟩, -50⟩]

/-! Basic facts about the lexicographic order on dates. -/

theorem Date.lt_def (a b : Date) :
    a < b ↔ (a.year < b.year ∨ (a.year = b.year ∧ (a.month < b.month ∨ (a.month = b.month ∧ a.day < b.day)))) :=
  Iff.rfl

theorem Date.le_def (a b : Date) :
    a ≤ b ↔ (a.year < b.year ∨ (a.year = b.year ∧ (a.month < b.month ∨ (a.month = b.month ∧ a.day ≤ b.day)))) :=
  Iff.rfl

theorem Date.le_refl (a : Date) : a ≤ a := by
  rw [Date.le_def]
  omega

theorem Date.le_trans {a b c : Date} (h1 : a ≤ b) (h2 : b ≤ c) : a ≤ c := by
  rw [Date.le_def] at *
  omega

theorem Date.lt_of_lt_of_le {a b c : Date} (h1 : a < b) (h2 : b ≤ c) : a < c := by
  rw [Date.lt_def] at *
  rw [Date.le_def] at h2
  omega

theorem Date.le_of_lt {a b : Date} (h : a < b) : a ≤ b := by
  rw [Date.lt_def] at h
  rw [Date.le_def]
  omega

theorem Date.le_of_lt_le {a b c : Date} (h1 : a < b) (h2 : b ≤ c) : a ≤ c :=
  Date.le_of_lt (Date.lt_of_lt_of_le h1 h2)

theorem Date.lt_irrefl (a : Date) : ¬ a < a := by
  rw [Date.lt_def]
  omega

theorem Date.not_le {a b : Date} : ¬ a ≤ b ↔ b < a := by
  rw [Date.le_def, Date.lt_def]
  omega

theorem Date.le_iff_lt_or_eq {a b : Date} : a ≤ b ↔ a < b ∨ a = b := by
  obtain ⟨y1, m1, d1⟩ := a
  obtain ⟨y2, m2, d2⟩ := b
  rw [Date.le_def, Date.lt_def, Date.mk.injEq]
  simp only []
  omega

theorem Date.ne_of_lt {a b : Date} (h : a < b) : a ≠ b := by
  intro he
  subst he
  exact Date.lt_irrefl a h

/-! Facts about month lengths and the day-count tables. -/

theorem daysInMonth_ge_28 (y m : Nat) : 28 ≤ daysInMonth y m := by
  unfold daysInMonth
  split
  · split <;> omega
  · split <;> omega

theorem daysInMonth_12 (y : Nat) : daysInMonth y 12 = 31 := by
  simp [daysInMonth]

theorem daysBeforeMonth_one (y : Nat) : daysBeforeMonth y 1 = 0 := by
  simp [daysBeforeMonth]

theorem daysBeforeMonth_succ (y m : Nat) (hm : 1 ≤ m) :
    daysBeforeMonth y (m + 1) = daysBeforeMonth y m + daysInMonth y m := by
  have hm0 : m ≠ 0 := by omega
  simp [daysBeforeMonth, hm0]

theorem daysBeforeMonth_step (y m : Nat) : daysBeforeMonth y m ≤ daysBeforeMonth y (m + 1) := by
  rcases Nat.eq_zero_or_pos m with h | h
  · subst h
    simp [daysBeforeMonth]
  · rw [daysBeforeMonth_succ y m h]
    omega

theorem daysBeforeMonth_mono (y : Nat) {m1 m2 : Nat} (h : m1 ≤ m2) :
    daysBeforeMonth y m1 ≤ daysBeforeMonth y m2 := by
  induction h with
  | refl => exact Nat.le_refl _
  | step h2 ih => exact Nat.le_trans ih (daysBeforeMonth_step y _)

theorem daysBeforeMonth_13 (y : Nat) :
    daysBeforeMonth y 13 = 365 + (if isLeap y then 1 else 0) := by
  cases h : isLeap y <;> simp [daysBeforeMonth, daysInMonth, h]

theorem isLeap_iff (y : Nat) : isLeap y = true ↔ (y % 4 = 0 ∧ (y % 100 ≠ 0 ∨ y % 400 = 0)) := by
  simp [isLeap]

theorem daysBeforeYear_succ (y : Nat) (hy : 1 ≤ y) :
    daysBeforeYear (y + 1) = daysBeforeYear y + 365 + (if isLeap y then 1 else 0) := by
  obtain ⟨a, rfl⟩ : ∃ a, y = a + 1 := ⟨y - 1, by omega⟩
  unfold daysBeforeYear
  simp only [Nat.add_sub_cancel]
  have h4 := Nat.succ_div a 4
  have h100 := Nat.succ_div a 100
  have h400 := Nat.succ_div a 400
  by_cases c4 : (a + 1) % 4 = 0 <;> by_cases c100 : (a + 1) % 100 = 0 <;>
    by_cases c400 : (a + 1) % 400 = 0 <;>
    rw [h4, h100, h400] <;>
    simp only [Nat.dvd_iff_mod_eq_zero, c4, c100, c400, isLeap] <;>
    simp [c4, c100, c400] <;>
    omega

theorem daysBeforeYear_mono {y1 y2 : Nat} (h : y1 ≤ y2) : daysBeforeYear y1 ≤ daysBeforeYear y2 := by
  induction y2 with
  | zero =>
    have : y1 = 0 := by omega
    subst this
    exact Nat.le_refl _
  | succ n ih =>
    rcases Nat.lt_or_ge y1 (n + 1) with h1 | h1
    · have h2 := ih (by omega)
      rcases Nat.eq_zero_or_pos n with hn | hn
      · subst hn
        have ha : daysBeforeYear 1 = 0 := by simp [daysBeforeYear]
        have hb : daysBeforeYear 0 = 0 := by simp [daysBeforeYear]
        omega
      · have h3 := daysBeforeYear_succ n hn
        omega
    · have : y1 = n + 1 := by omega
      subst this
      exact Nat.le_refl _

theorem daysBeforeYear_succ_ge (y : Nat) (hy : 1 ≤ y) :
    daysBeforeYear y + 365 ≤ daysBeforeYear (y + 1) := by
  have := daysBeforeYear_succ y hy
  omega

theorem dayCount_le_year (y m d : Nat) (hm1 : 1 ≤ m) (hm2 : m ≤ 12) (hd : d ≤ daysInMonth y m) :
    daysBeforeMonth y m + d ≤ 365 + (if isLeap y then 1 else 0) := by
  have h1 : daysBeforeMonth y m + d ≤ daysBeforeMonth y (m + 1) := by
    rw [daysBeforeMonth_succ y m hm1]
    omega
  have h2 : daysBeforeMonth y (m + 1) ≤ daysBeforeMonth y 13 :=
    daysBeforeMonth_mono y (by omega)
  have h3 := daysBeforeMonth_13 y
  omega

/-- The ordinal is strictly monotone along the lexicographic order on
valid dates. -/
theorem ord_lt_of_lt {a b : Date} (ha : a.valid) (hb : b.valid) (h : a < b) :
    a.ord < b.ord := by
  obtain ⟨y1, m1, d1⟩ := a
  obtain ⟨y2, m2, d2⟩ := b
  obtain ⟨hay, ham1, ham2, had1, had2⟩ := ha
  obtain ⟨hby, hbm1, hbm2, hbd1, hbd2⟩ := hb
  simp only at hay ham1 ham2 had1 had2 hby hbm1 hbm2 hbd1 hbd2
  rw [Date.lt_def] at h
  simp only at h
  unfold Date.ord
  simp only
  rcases h with hy | ⟨hy, hm | ⟨hm, hd⟩⟩
  · -- strictly later year
    have h1 := dayCount_le_year y1 m1 d1 ham1 ham2 had2
    have h2 := daysBeforeYear_succ y1 hay
    have h3 : daysBeforeYear (y1 + 1) ≤ daysBeforeYear y2 := daysBeforeYear_mono (by omega)
    omega
  · -- same year, strictly later month
    subst hy
    have h1 : daysBeforeMonth y1 m1 + d1 ≤ daysBeforeMonth y1 (m1 + 1) := by
      rw [daysBeforeMonth_succ y1 m1 ham1]
      omega
    have h2 : daysBeforeMonth y1 (m1 + 1) ≤ daysBeforeMonth y1 m2 :=
      daysBeforeMonth_mono y1 (by omega)
    omega
  · -- same year and month, strictly later day
    subst hy
    subst hm
    omega

theorem ord_le_of_le {a b : Date} (ha : a.valid) (hb : b.valid) (h : a ≤ b) :
    a.ord ≤ b.ord := by
  rcases Date.le_iff_lt_or_eq.mp h with h1 | h1
  · exact Nat.le_of_lt (ord_lt_of_lt ha hb h1)
  · subst h1
    exact Nat.le_refl _

theorem lt_iff_ord_lt {a b : Date} (ha : a.valid) (hb : b.valid) :
    a < b ↔ a.ord < b.ord := by
  constructor
  · exact ord_lt_of_lt ha hb
  · intro h
    by_contra hab
    have : b ≤ a := by
      rw [Date.le_def]
      rw [Date.lt_def] at hab
      omega
    have := ord_le_of_le hb ha this
    omega

theorem le_iff_ord_le {a b : Date} (ha : a.valid) (hb : b.valid) :
    a ≤ b ↔ a.ord ≤ b.ord := by
  constructor
  · exact ord_le_of_le ha hb
  · intro h
    by_contra hab
    have h2 : b < a := Date.not_le.mp hab
    have := ord_lt_of_lt hb ha h2
    omega

theorem Date.not_lt {a b : Date} : ¬ a < b ↔ b ≤ a := by
  rw [Date.lt_def, Date.le_def]
  omega

theorem eq_of_ord_eq {a b : Date} (ha : a.valid) (hb : b.valid) (h : a.ord = b.ord) :
    a = b := by
  by_cases h1 : a < b
  · exact absurd (ord_lt_of_lt ha hb h1) (by omega)
  · rcases Date.le_iff_lt_or_eq.mp (Date.not_lt.mp h1) with h2 | h2
    · exact absurd (ord_lt_of_lt hb ha h2) (by omega)
    · exact h2.symm

theorem Date.valid_mk (y m d : Nat) :
    Date.valid ⟨y, m, d⟩ ↔ (1 ≤ y ∧ 1 ≤ m ∧ m ≤ 12 ∧ 1 ≤ d ∧ d ≤ daysInMonth y m) :=
  Iff.rfl

theorem Date.lt_mk (y1 m1 d1 y2 m2 d2 : Nat) :
    (⟨y1, m1, d1⟩ : Date) < ⟨y2, m2, d2⟩ ↔
      (y1 < y2 ∨ (y1 = y2 ∧ (m1 < m2 ∨ (m1 = m2 ∧ d1 < d2)))) :=
  Iff.rfl

theorem Date.le_mk (y1 m1 d1 y2 m2 d2 : Nat) :
    (⟨y1, m1, d1⟩ : Date) ≤ ⟨y2, m2, d2⟩ ↔
      (y1 < y2 ∨ (y1 = y2 ∧ (m1 < m2 ∨ (m1 = m2 ∧ d1 ≤ d2)))) :=
  Iff.rfl

theorem Date.ord_mk (y m d : Nat) :
    Date.ord ⟨y, m, d⟩ = daysBeforeYear y + daysBeforeMonth y m + d :=
  rfl

theorem nextDay_valid {d : Date} (h : d.valid) : (nextDay d).valid := by
  obtain ⟨y, m, day⟩ := d
  obtain ⟨hy, hm1, hm2, hd1, hd2⟩ := h
  simp only at hy hm1 hm2 hd1 hd2
  have h28a := daysInMonth_ge_28 y (m + 1)
  have h28b := daysInMonth_ge_28 (y + 1) 1
  unfold nextDay
  simp only
  split
  · rw [Date.valid_mk]
    omega
  · split
    · rw [Date.valid_mk]
      omega
    · rw [Date.valid_mk]
      omega

theorem ord_nextDay {d : Date} (h : d.valid) : (nextDay d).ord = d.ord + 1 := by
  obtain ⟨y, m, day⟩ := d
  obtain ⟨hy, hm1, hm2, hd1, hd2⟩ := h
  simp only at hy hm1 hm2 hd1 hd2
  unfold nextDay
  simp only
  split
  · rw [Date.ord_mk, Date.ord_mk]
    omega
  · rename_i hnd
    split
    · rw [Date.ord_mk, Date.ord_mk]
      have hstep := daysBeforeMonth_succ y m hm1
      omega
    · rename_i hm12
      have hm' : m = 12 := by omega
      subst hm'
      rw [Date.ord_mk, Date.ord_mk]
      have h13 := daysBeforeMonth_succ y 12 (by omega)
      norm_num at h13
      have h13v := daysBeforeMonth_13 y
      have hsucc := daysBeforeYear_succ y hy
      have h12 := daysInMonth_12 y
      have h1 := daysBeforeMonth_one (y + 1)
      cases hL : isLeap y <;> simp [hL] at h13v hsucc <;> omega

theorem addDays_valid {d : Date} (h : d.valid) (n : Nat) : (addDays d n).valid := by
  induction n with
  | zero => exact h
  | succ k ih => exact nextDay_valid ih

theorem ord_addDays {d : Date} (h : d.valid) (n : Nat) : (addDays d n).ord = d.ord + n := by
  induction n with
  | zero => rfl
  | succ k ih =>
    show (nextDay (addDays d k)).ord = d.ord + (k + 1)
    rw [ord_nextDay (addDays_valid h k), ih]
    omega

theorem addDays_succ_front (d : Date) (n : Nat) : addDays d (n + 1) = addDays (nextDay d) n := by
  induction n with
  | zero => rfl
  | succ k ih =>
    show nextDay (addDays d (k + 1)) = nextDay (addDays (nextDay d) k)
    rw [ih]

/-- `nextDay` is the successor among valid dates for the lexicographic
order. -/
theorem nextDay_le_of_lt {a b : Date} (ha : a.valid) (hb : b.valid) (h : a < b) :
    nextDay a ≤ b := by
  obtain ⟨y1, m1, d1⟩ := a
  obtain ⟨y2, m2, d2⟩ := b
  obtain ⟨hay, ham1, ham2, had1, had2⟩ := ha
  obtain ⟨hby, hbm1, hbm2, hbd1, hbd2⟩ := hb
  simp only at hay ham1 ham2 had1 had2 hby hbm1 hbm2 hbd1 hbd2
  rw [Date.lt_mk] at h
  unfold nextDay
  simp only
  rcases h with hy | ⟨hy, hm | ⟨hm, hd⟩⟩
  · split
    · rw [Date.le_mk]
      omega
    · split
      · rw [Date.le_mk]
        omega
      · rw [Date.le_mk]
        omega
  · subst hy
    split
    · rw [Date.le_mk]
      omega
    · split
      · rw [Date.le_mk]
        omega
      · omega
  · subst hy
    subst hm
    split
    · rw [Date.le_mk]
      omega
    · omega

theorem le_addDays {d : Date} (h : d.valid) (n : Nat) : d ≤ addDays d n := by
  rw [le_iff_ord_le h (addDays_valid h n), ord_addDays h n]
  omega

/-- Every valid date at or after `a` is reached by adding the ordinal
difference. -/
theorem addDays_of_le : ∀ (n : Nat) (a b : Date), a.valid → b.valid → a ≤ b →
    b.ord = a.ord + n → addDays a n = b := by
  intro n
  induction n with
  | zero =>
    intro a b ha hb hle hord
    have hab : a = b := eq_of_ord_eq ha hb (by omega)
    simpa [addDays] using hab
  | succ k ih =>
    intro a b ha hb hle hord
    have hlt : a < b := (lt_iff_ord_lt ha hb).mpr (by omega)
    have h1 : nextDay a ≤ b := nextDay_le_of_lt ha hb hlt
    have h2 : addDays (nextDay a) k = b := by
      refine ih (nextDay a) b (nextDay_valid ha) hb h1 ?_
      rw [ord_nextDay ha]
      omega
    rw [addDays_succ_front]
    exact h2

/-! Characterization of the daily grid `dateRange`. -/

theorem dateRange_length (s e : Date) : (dateRange s e).length = e.ord + 1 - s.ord := by
  simp [dateRange]

theorem mem_dateRange_iff {s e : Date} (hs : s.valid) (he : e.valid) (d : Date) (hd : d.valid) :
    d ∈ dateRange s e ↔ (s ≤ d ∧ d ≤ e) := by
  unfold dateRange
  rw [List.mem_map]
  constructor
  · rintro ⟨i, hi, rfl⟩
    rw [List.mem_range] at hi
    have hv := addDays_valid hs i
    have ho := ord_addDays hs i
    constructor
    · exact le_addDays hs i
    · rw [le_iff_ord_le hv he]
      omega
  · rintro ⟨h1, h2⟩
    refine ⟨d.ord - s.ord, ?_, ?_⟩
    · rw [List.mem_range]
      have o1 := ord_le_of_le hs hd h1
      have o2 := ord_le_of_le hd he h2
      omega
    · refine addDays_of_le (d.ord - s.ord) s d hs hd h1 ?_
      have o1 := ord_le_of_le hs hd h1
      omega

theorem dateRange_valid {s e : Date} (hs : s.valid) {d : Date} (hd : d ∈ dateRange s e) :
    d.valid := by
  unfold dateRange at hd
  rw [List.mem_map] at hd
  obtain ⟨i, hi, rfl⟩ := hd
  exact addDays_valid hs i

theorem mem_dateRange_bounds {s e : Date} (hs : s.valid) (he : e.valid) {d : Date}
    (hd : d ∈ dateRange s e) : s ≤ d ∧ d ≤ e :=
  (mem_dateRange_iff hs he d (dateRange_valid hs hd)).mp hd

theorem dateRange_pairwise {s e : Date} (hs : s.valid) :
    (dateRange s e).Pairwise (fun a b => a < b) := by
  unfold dateRange
  rw [List.pairwise_map]
  have hr : (List.range (e.ord + 1 - s.ord)).Pairwise (· < ·) := List.pairwise_lt_range _
  refine hr.imp ?_
  intro i j hij
  rw [lt_iff_ord_lt (addDays_valid hs i) (addDays_valid hs j), ord_addDays hs i, ord_addDays hs j]
  omega

theorem dateRange_nodup {s e : Date} (hs : s.valid) : (dateRange s e).Nodup := by
  have h := dateRange_pairwise (e := e) hs
  exact h.imp (fun hab => Date.ne_of_lt hab)

theorem dateRange_single {s e : Date} (h : s = e) :
    (dateRange s e).length = 1 := by
  subst h
  rw [dateRange_length]
  omega

/-! Properties of the balance projection. -/

theorem projectAux_length (events : List Event) (b : Int) (ds : List Date) :
    (projectAux events b ds).length = ds.length := by
  induction ds generalizing b with
  | nil => rfl
  | cons d tl ih => simp [projectAux, ih]

theorem projectAux_dates (events : List Event) (b : Int) (ds : List Date) :
    (projectAux events b ds).map TLEntry.date = ds := by
  induction ds generalizing b with
  | nil => rfl
  | cons d tl ih => simp [projectAux, ih]

theorem project_balance_dates (sb : Int) (events : List Event) (s e : Date) :
    (project_balance sb events s e).map TLEntry.date = dateRange s e :=
  projectAux_dates events sb (dateRange s e)

theorem projectAux_head (events : List Event) (b : Int) (ds : List Date)
    (h : 0 < (projectAux events b ds).length) :
    (projectAux events b ds)[0].balance
      = b + netAmount events ((projectAux events b ds)[0].date) := by
  cases ds with
  | nil => simp [projectAux] at h
  | cons d tl => simp [projectAux]

theorem projectAux_succ (events : List Event) (b : Int) (ds : List Date) :
    ∀ i (h1 : i + 1 < (projectAux events b ds).length),
      (projectAux events b ds)[i + 1].balance - (projectAux events b ds)[i].balance
        = netAmount events ((projectAux events b ds)[i + 1].date) := by
  induction ds generalizing b with
  | nil =>
    intro i h1
    simp [projectAux] at h1
  | cons d tl ih =>
    intro i h1
    cases i with
    | zero =>
      have hlen : 0 < (projectAux events (b + netAmount events d) tl).length := by
        simp [projectAux, projectAux_length] at h1 ⊢
        omega
      have hh := projectAux_head events (b + netAmount events d) tl hlen
      simp only [projectAux, List.getElem_cons_succ, List.getElem_cons_zero]
      omega
    | succ k =>
      have h2 : k + 1 < (projectAux events (b + netAmount events d) tl).length := by
        simp only [projectAux, List.length_cons] at h1
        omega
      have hk := ih (b + netAmount events d) k h2
      simp only [projectAux, List.getElem_cons_succ]
      exact hk

/-! Properties of the expansion loop. -/

theorem lt_nextDay {c : Date} (hc : c.valid) : c < nextDay c := by
  rw [lt_iff_ord_lt hc (nextDay_valid hc), ord_nextDay hc]
  omega

theorem lt_addDays_seven {c : Date} (hc : c.valid) : c < addDays c 7 := by
  rw [lt_iff_ord_lt hc (addDays_valid hc 7), ord_addDays hc 7]
  omega

theorem pyReplace_eq_ok {y m d : Nat} {r : Date} (h : pyReplace y m d = Except.ok r) :
    r = ⟨y, m, d⟩ ∧ (1 ≤ y ∧ 1 ≤ m ∧ m ≤ 12 ∧ 1 ≤ d ∧ d ≤ daysInMonth y m) := by
  unfold pyReplace at h
  split at h
  · rename_i hc
    injection h with h2
    exact ⟨h2.symm, hc⟩
  · cases h

theorem pyReplace_ok_of {y m d : Nat} (h : 1 ≤ y ∧ 1 ≤ m ∧ m ≤ 12 ∧ 1 ≤ d ∧ d ≤ daysInMonth y m) :
    pyReplace y m d = Except.ok ⟨y, m, d⟩ := by
  unfold pyReplace
  rw [if_pos h]

theorem advance_daily (c : Date) : advance "Daily" c = some (Except.ok (nextDay c)) := by
  simp [advance]

theorem advance_weekly (c : Date) : advance "Weekly" c = some (Except.ok (addDays c 7)) := by
  simp [advance]

theorem advance_yearly (c : Date) (hc : c.valid) :
    ∃ next, advance "Yearly" c = some (Except.ok next) ∧ next.valid ∧ c < next := by
  obtain ⟨y, m, day⟩ := c
  obtain ⟨hy, hm1, hm2, hd1, hd2⟩ := hc
  simp only at hy hm1 hm2 hd1 hd2
  have hadv : advance "Yearly" (⟨y, m, day⟩ : Date)
      = some (match pyReplace (y + 1) m day with
              | Except.ok d => Except.ok d
              | Except.error _ => pyReplace (y + 1) 2 28) := by
    simp [advance]
  cases hrep : pyReplace (y + 1) m day with
  | ok d2 =>
    obtain ⟨rfl, hcond⟩ := pyReplace_eq_ok hrep
    refine ⟨⟨y + 1, m, day⟩, ?_, ?_, ?_⟩
    · rw [hadv, hrep]
    · rw [Date.valid_mk]
      omega
    · rw [Date.lt_mk]
      omega
  | error pe =>
    have h28 := daysInMonth_ge_28 (y + 1) 2
    have hfb : pyReplace (y + 1) 2 28 = Except.ok ⟨y + 1, 2, 28⟩ :=
      pyReplace_ok_of (by omega)
    refine ⟨⟨y + 1, 2, 28⟩, ?_, ?_, ?_⟩
    · rw [hadv, hrep, hfb]
    · rw [Date.valid_mk]
      omega
    · rw [Date.lt_mk]
      omega

theorem advance_monthly_ok {c next : Date} (hc : c.valid)
    (h : advance "Monthly" c = some (Except.ok next)) :
    next.valid ∧ c < next ∧ next.day = c.day := by
  obtain ⟨y, m, day⟩ := c
  obtain ⟨hy, hm1, hm2, hd1, hd2⟩ := hc
  simp only at hy hm1 hm2 hd1 hd2
  by_cases h12 : m = 12
  · subst h12
    have hadv : advance "Monthly" (⟨y, 12, day⟩ : Date) = some (pyReplace (y + 1) 1 day) := by
      simp [advance]
    rw [hadv] at h
    injection h with h2
    obtain ⟨rfl, hcond⟩ := pyReplace_eq_ok h2
    refine ⟨?_, ?_, rfl⟩
    · rw [Date.valid_mk]
      omega
    · rw [Date.lt_mk]
      omega
  · have hadv : advance "Monthly" (⟨y, m, day⟩ : Date) = some (pyReplace y (m + 1) day) := by
      simp [advance, h12]
    rw [hadv] at h
    injection h with h2
    obtain ⟨rfl, hcond⟩ := pyReplace_eq_ok h2
    refine ⟨?_, ?_, rfl⟩
    · rw [Date.valid_mk]
      omega
    · rw [Date.lt_mk]
      omega

theorem advance_monthly_le28 {c : Date} (hc : c.valid) (hd : c.day ≤ 28) :
    ∃ next, advance "Monthly" c = some (Except.ok next) := by
  obtain ⟨y, m, day⟩ := c
  obtain ⟨hy, hm1, hm2, hd1, hd2⟩ := hc
  simp only at hy hm1 hm2 hd1 hd2
  simp only at hd
  by_cases h12 : m = 12
  · subst h12
    have hadv : advance "Monthly" (⟨y, 12, day⟩ : Date) = some (pyReplace (y + 1) 1 day) := by
      simp [advance]
    have h28 := daysInMonth_ge_28 (y + 1) 1
    exact ⟨⟨y + 1, 1, day⟩, by rw [hadv, pyReplace_ok_of (by omega)]⟩
  · have hadv : advance "Monthly" (⟨y, m, day⟩ : Date) = some (pyReplace y (m + 1) day) := by
      simp [advance, h12]
    have h28 := daysInMonth_ge_28 y (m + 1)
    exact ⟨⟨y, m + 1, day⟩, by rw [hadv, pyReplace_ok_of (by omega)]⟩

theorem advance_known_some {freq : String} (hf : knownFreq freq) (c : Date) (hc : c.valid) :
    ∃ r, advance freq c = some r := by
  rcases hf with hf | hf | hf | hf
  · subst hf
    exact ⟨_, advance_daily c⟩
  · subst hf
    exact ⟨_, advance_weekly c⟩
  · subst hf
    by_cases h12 : c.month = 12
    · refine ⟨pyReplace (c.year + 1) 1 c.day, ?_⟩
      simp [advance, h12]
    · refine ⟨pyReplace c.year (c.month + 1) c.day, ?_⟩
      simp [advance, h12]
  · subst hf
    obtain ⟨next, hn, _, _⟩ := advance_yearly c hc
    exact ⟨_, hn⟩

theorem advance_unknown {freq : String} (hf : ¬ knownFreq freq) (c : Date) :
    advance freq c = none := by
  unfold knownFreq at hf
  push_neg at hf
  obtain ⟨h1, h2, h3, h4⟩ := hf
  simp [advance, h1, h2, h3, h4]

theorem advance_ok_valid_lt {freq : String} (hf : knownFreq freq) {c next : Date} (hc : c.valid)
    (h : advance freq c = some (Except.ok next)) : next.valid ∧ c < next := by
  rcases hf with hf | hf | hf | hf
  · subst hf
    rw [advance_daily c] at h
    injection h with h2
    injection h2 with h3
    subst h3
    exact ⟨nextDay_valid hc, lt_nextDay hc⟩
  · subst hf
    rw [advance_weekly c] at h
    injection h with h2
    injection h2 with h3
    subst h3
    exact ⟨addDays_valid hc 7, lt_addDays_seven hc⟩
  · subst hf
    obtain ⟨hv, hlt, _⟩ := advance_monthly_ok hc h
    exact ⟨hv, hlt⟩
  · subst hf
    obtain ⟨next2, hn, hv, hlt⟩ := advance_yearly c hc
    rw [hn] at h
    injection h with h2
    injection h2 with h3
    subst h3
    exact ⟨hv, hlt⟩

theorem genAux_terminates {freq : String} (hf : knownFreq freq) {e : Date} (he : e.valid) :
    ∀ fuel c, c.valid → e.ord + 1 - c.ord < fuel → genAux freq e fuel c ≠ none := by
  intro fuel
  induction fuel with
  | zero =>
    intro c hc hb
    omega
  | succ k ih =>
    intro c hc hb
    simp only [genAux]
    by_cases hle : c ≤ e
    · rw [if_pos hle]
      obtain ⟨r, hr⟩ := advance_known_some hf c hc
      rw [hr]
      cases r with
      | ok next =>
        obtain ⟨hnv, hlt⟩ := advance_ok_valid_lt hf hc hr
        have hbound : e.ord + 1 - next.ord < k := by
          have h1 := ord_lt_of_lt hc hnv hlt
          have h2 := ord_le_of_le hc he hle
          omega
        have hne := ih next hnv hbound
        cases hg : genAux freq e k next with
        | none => exact absurd hg hne
        | some p => simp [hg]
      | error pe =>
        simp
    · rw [if_neg hle]
      simp

theorem genAux_unknown_none {freq : String} (hf : ¬ knownFreq freq) {s e : Date} (hse : s ≤ e) :
    ∀ fuel, genAux freq e fuel s = none := by
  intro fuel
  induction fuel with
  | zero => rfl
  | succ k ih =>
    simp only [genAux]
    rw [if_pos hse, advance_unknown hf, ih]
    rfl

/-- Master safety lemma: any invariant preserved by a never-failing
advance yields a clean (no-exception) run of the loop. -/
theorem genAux_clean {freq : String} {e : Date} (he : e.valid) (P : Date → Prop)
    (hPvalid : ∀ c, P c → c.valid)
    (hstep : ∀ c, P c → ∃ next, advance freq c = some (Except.ok next) ∧ P next ∧ c < next) :
    ∀ fuel c, P c → e.ord + 1 - c.ord < fuel → ∃ ds, genAux freq e fuel c = some (ds, none) := by
  intro fuel
  induction fuel with
  | zero =>
    intro c hc hb
    omega
  | succ k ih =>
    intro c hP hb
    have hc := hPvalid c hP
    simp only [genAux]
    by_cases hle : c ≤ e
    · rw [if_pos hle]
      obtain ⟨next, hr, hPn, hlt⟩ := hstep c hP
      rw [hr]
      have hbound : e.ord + 1 - next.ord < k := by
        have h1 := ord_lt_of_lt hc (hPvalid next hPn) hlt
        have h2 := ord_le_of_le hc he hle
        omega
      obtain ⟨ds, hds⟩ := ih next hPn hbound
      exact ⟨c :: ds, by simp [hds]⟩
    · rw [if_neg hle]
      exact ⟨[], rfl⟩

/-- Emitted dates lie between the current date and the end date, and are
strictly increasing, whether or not the run ended in an exception. -/
theorem genAux_bounds {freq : String} (hf : knownFreq freq) (e : Date) :
    ∀ fuel c ds err, c.valid → genAux freq e fuel c = some (ds, err) →
      (∀ d ∈ ds, c ≤ d ∧ d ≤ e) ∧ ds.Pairwise (fun a b => a < b) := by
  intro fuel
  induction fuel with
  | zero =>
    intro c ds err hc h
    exact absurd h (by simp [genAux])
  | succ k ih =>
    intro c ds err hc h
    simp only [genAux] at h
    by_cases hle : c ≤ e
    · rw [if_pos hle] at h
      split at h
      · rename_i next hr
        cases hg : genAux freq e k next with
        | none =>
          rw [hg] at h
          simp at h
        | some p =>
          obtain ⟨ds2, err2⟩ := p
          rw [hg] at h
          simp at h
          obtain ⟨hds, herr⟩ := h
          subst hds
          subst herr
          obtain ⟨hnv, hlt⟩ := advance_ok_valid_lt hf hc hr
          obtain ⟨hmem, hpair⟩ := ih next ds2 err2 hnv hg
          constructor
          · intro d hd
            rcases List.mem_cons.mp hd with hdc | hdm
            · subst hdc
              exact ⟨Date.le_refl d, hle⟩
            · obtain ⟨h1, h2⟩ := hmem d hdm
              exact ⟨Date.le_of_lt_le hlt h1, h2⟩
          · rw [List.pairwise_cons]
            refine ⟨?_, hpair⟩
            intro d hd
            exact Date.lt_of_lt_of_le hlt (hmem d hd).1
      · rename_i pe hr
        simp only [Option.some.injEq] at h
        obtain ⟨hds, herr⟩ := Prod.mk.injEq .. |>.mp h
        subst hds
        constructor
        · intro d hd
          rcases List.mem_singleton.mp hd with rfl
          exact ⟨Date.le_refl d, hle⟩
        · simp
      · rename_i hr
        obtain ⟨r, hr2⟩ := advance_known_some hf c hc
        rw [hr] at hr2
        simp at hr2
    · rw [if_neg hle] at h
      simp only [Option.some.injEq] at h
      obtain ⟨hds, herr⟩ := Prod.mk.injEq .. |>.mp h
      subst hds
      simp

theorem genAux_empty {freq : String} {s e : Date} (hse : ¬ s ≤ e) (fuel : Nat) :
    genAux freq e (fuel + 1) s = some ([], none) := by
  simp only [genAux]
  rw [if_neg hse]

/-! The claim theorems. -/

set_option maxRecDepth 20000

/-- C1: prefix-sum law of the projection.  For every start balance, event
multiset and range with start_date ≤ end_date: each timeline entry's
balance differs from the previous entry's balance by exactly the net
amount of events dated on that entry's date, and the first entry's balance
minus the start balance is the net amount of events on the first day. -/
theorem C1_prefix_sum_law (sb : Int) (events : List Event) (s e : Date) (_hse : s ≤ e) :
    (∀ i (h1 : i + 1 < (project_balance sb events s e).length),
        (project_balance sb events s e)[i + 1].balance
            - (project_balance sb events s e)[i].balance
          = netAmount events ((project_balance sb events s e)[i + 1].date))
    ∧ (∀ h0 : 0 < (project_balance sb events s e).length,
        (project_balance sb events s e)[0].balance - sb
          = netAmount events ((project_balance sb events s e)[0].date)) := by
  constructor
  · intro i h1
    exact projectAux_succ events sb (dateRange s e) i h1
  · intro h0
    have h0' : 0 < (projectAux events sb (dateRange s e)).length := h0
    have hh := projectAux_head events sb (dateRange s e) h0'
    show (projectAux events sb (dateRange s e))[0].balance - sb
        = netAmount events ((projectAux events sb (dateRange s e))[0].date)
    omega

/-- Witness for C1: concrete one-event, two-day instantiation. -/
theorem C1_prefix_sum_law_witness :
    ((project_balance 100 [⟨⟨2025, 1, 1⟩, 5⟩] ⟨2025, 1, 1⟩ ⟨2025, 1, 2⟩).get ⟨1, by decide⟩).balance
        - ((project_balance 100 [⟨⟨2025, 1, 1⟩, 5⟩] ⟨2025, 1, 1⟩ ⟨2025, 1, 2⟩).get ⟨0, by decide⟩).balance
      = netAmount [⟨⟨2025, 1, 1⟩, 5⟩]
          (((project_balance 100 [⟨⟨2025, 1, 1⟩, 5⟩] ⟨2025, 1, 1⟩ ⟨2025, 1, 2⟩).get ⟨1, by decide⟩).date) :=
  (C1_prefix_sum_law 100 [⟨⟨2025, 1, 1⟩, 5⟩] ⟨2025, 1, 1⟩ ⟨2025, 1, 2⟩ (by decide)).1 0 (by decide)

/-- C6: an event dated outside the projection range does not change the
projected timeline. -/
theorem C6_outside_event_no_effect (sb : Int) (E : List Event) (ev : Event) (s e : Date)
    (hs : s.valid) (he : e.valid) (_hse : s ≤ e)
    (hout : ¬ (s ≤ ev.date ∧ ev.date ≤ e)) :
    project_balance sb (ev :: E) s e = project_balance sb E s e := by
  unfold project_balance
  have hcong : ∀ (b : Int) (ds : List Date), (∀ d ∈ ds, netAmount (ev :: E) d = netAmount E d) →
      projectAux (ev :: E) b ds = projectAux E b ds := by
    intro b ds
    induction ds generalizing b with
    | nil =>
      intro _
      rfl
    | cons d tl ih =>
      intro hall
      have hd := hall d (List.mem_cons_self d tl)
      have htl := ih (b + netAmount E d) (fun x hx => hall x (List.mem_cons_of_mem d hx))
      simp [projectAux, hd, htl]
  apply hcong
  intro d hd
  have hb := mem_dateRange_bounds hs he hd
  have hne : ev.date ≠ d := by
    intro hEq
    exact hout (hEq ▸ hb)
  simp [netAmount, List.filter_cons, hne]

/-- Witness for C6: an event the day after a one-day range is dropped. -/
theorem C6_outside_event_no_effect_witness :
    project_balance 0 [⟨⟨2025, 1, 2⟩, 7⟩] ⟨2025, 1, 1⟩ ⟨2025, 1, 1⟩
      = project_balance 0 [] ⟨2025, 1, 1⟩ ⟨2025, 1, 1⟩ :=
  C6_outside_event_no_effect 0 [] ⟨⟨2025, 1, 2⟩, 7⟩ ⟨2025, 1, 1⟩ ⟨2025, 1, 1⟩
    (by decide) (by decide) (by decide) (by decide)

/-- C7: the timeline has exactly one entry per calendar day of
start_date..end_date inclusive, in strictly ascending date order with no
duplicates and no gaps, and a single entry when the range is one day. -/
theorem C7_timeline_day_grid (sb : Int) (events : List Event) (s e : Date)
    (hs : s.valid) (he : e.valid) (_hse : s ≤ e) :
    (∀ d : Date, d.valid →
        ((s ≤ d ∧ d ≤ e) ↔ d ∈ (project_balance sb events s e).map TLEntry.date))
    ∧ ((project_balance sb events s e).map TLEntry.date).Pairwise (fun a b => a < b)
    ∧ (∀ d : Date, d.valid → s ≤ d → d ≤ e →
        ((project_balance sb events s e).map TLEntry.date).count d = 1)
    ∧ (s = e → (project_balance sb events s e).length = 1) := by
  have hdates := project_balance_dates sb events s e
  refine ⟨?_, ?_, ?_, ?_⟩
  · intro d hd
    rw [hdates]
    exact (mem_dateRange_iff hs he d hd).symm
  · rw [hdates]
    exact dateRange_pairwise hs
  · intro d hd h1 h2
    rw [hdates]
    have hmem : d ∈ dateRange s e := (mem_dateRange_iff hs he d hd).mpr ⟨h1, h2⟩
    exact List.count_eq_one_of_mem (dateRange_nodup hs) hmem
  · intro h
    have hlen : (project_balance sb events s e).length = (dateRange s e).length := by
      rw [← hdates, List.length_map]
    rw [hlen]
    exact dateRange_single h

/-- Witness for C7: the two-day grid contains 2025-01-01 exactly once. -/
theorem C7_timeline_day_grid_witness :
    ((project_balance 0 [] ⟨2025, 1, 1⟩ ⟨2025, 1, 2⟩).map TLEntry.date).count ⟨2025, 1, 1⟩ = 1 :=
  (C7_timeline_day_grid 0 [] ⟨2025, 1, 1⟩ ⟨2025, 1, 2⟩ (by decide) (by decide)
    (by decide)).2.2.1 ⟨2025, 1, 1⟩ (by decide) (by decide) (by decide)

/-- C4: for the four recognized frequencies the expansion loop terminates
(the fuel bound derived from the range is never exhausted), each
successful advance moves the date forward by at least one day, and for any
other frequency value with start_date ≤ end_date the loop runs forever
(every fuel is exhausted). -/
theorem C4_loop_termination :
    (∀ freq, knownFreq freq → ∀ s e : Date, s.valid → e.valid →
        genAux freq e (genFuel s e) s ≠ none)
    ∧ (∀ freq, knownFreq freq → ∀ c next : Date, c.valid →
        advance freq c = some (Except.ok next) → c.ord + 1 ≤ next.ord)
    ∧ (∀ freq, ¬ knownFreq freq → ∀ s e : Date, s ≤ e → ∀ fuel,
        genAux freq e fuel s = none) := by
  refine ⟨?_, ?_, ?_⟩
  · intro freq hf s e hs he
    apply genAux_terminates hf he (genFuel s e) s hs
    unfold genFuel
    omega
  · intro freq hf c next hc hadv
    obtain ⟨hnv, hlt⟩ := advance_ok_valid_lt hf hc hadv
    have := ord_lt_of_lt hc hnv hlt
    omega
  · intro freq hf s e hse fuel
    exact genAux_unknown_none hf hse fuel

/-- Witness for C4: Daily terminates on a three-day range; the
unrecognized frequency string runs the fuel out. -/
theorem C4_loop_termination_witness :
    genAux "Daily" ⟨2025, 1, 3⟩ (genFuel ⟨2025, 1, 1⟩ ⟨2025, 1, 3⟩) ⟨2025, 1, 1⟩ ≠ none
    ∧ genAux "Hourly" ⟨2025, 1, 3⟩ 5 ⟨2025, 1, 1⟩ = none :=
  ⟨C4_loop_termination.1 "Daily" (Or.inl rfl) ⟨2025, 1, 1⟩ ⟨2025, 1, 3⟩ (by decide) (by decide),
   C4_loop_termination.2.2 "Hourly" (by simp [knownFreq]) ⟨2025, 1, 1⟩ ⟨2025, 1, 3⟩ (by decide) 5⟩

/-- C5: for all four frequencies, every emitted date of an expansion lies
in [start_date, end_date] and the emitted dates strictly increase; a
reversed range always yields an empty expansion. -/
theorem C5_expansion_range_sorted :
    (∀ freq, knownFreq freq → ∀ (s e : Date) (amt : Int) evs err, s.valid → e.valid →
        generate_recurring_events s e amt freq = some (evs, err) →
        (∀ ev ∈ evs, s ≤ ev.date ∧ ev.date ≤ e)
          ∧ evs.Pairwise (fun a b => a.date < b.date))
    ∧ (∀ freq (s e : Date) (amt : Int), ¬ s ≤ e →
        generate_recurring_events s e amt freq = some ([], none)) := by
  constructor
  · intro freq hf s e amt evs err hs he hgen
    unfold generate_recurring_events at hgen
    cases hg : genAux freq e (genFuel s e) s with
    | none =>
      rw [hg] at hgen
      simp at hgen
    | some p =>
      obtain ⟨ds, err2⟩ := p
      rw [hg] at hgen
      simp at hgen
      obtain ⟨hevs, herr⟩ := hgen
      subst hevs
      obtain ⟨hmem, hpair⟩ := genAux_bounds hf e (genFuel s e) s ds err2 hs hg
      constructor
      · intro ev hev
        rw [List.mem_map] at hev
        obtain ⟨d, hd, rfl⟩ := hev
        exact hmem d hd
      · rw [List.pairwise_map]
        exact hpair
  · intro freq s e amt hse
    unfold generate_recurring_events
    obtain ⟨k, hk⟩ : ∃ k, genFuel s e = k + 1 := ⟨genFuel s e - 1, by unfold genFuel; omega⟩
    rw [hk, genAux_empty hse k]
    rfl

/-- Witness for C5: Weekly expansion over 2025-01-01..2025-01-10 emits
two in-range, strictly increasing events. -/
theorem C5_expansion_range_sorted_witness :
    ((∀ ev ∈ ([⟨⟨2025, 1, 1⟩, 3⟩, ⟨⟨2025, 1, 8⟩, 3⟩] : List Event),
        (⟨2025, 1, 1⟩ : Date) ≤ ev.date ∧ ev.date ≤ (⟨2025, 1, 10⟩ : Date))
      ∧ ([⟨⟨2025, 1, 1⟩, 3⟩, ⟨⟨2025, 1, 8⟩, 3⟩] : List Event).Pairwise (fun a b => a.date < b.date))
    ∧ generate_recurring_events ⟨2025, 1, 10⟩ ⟨2025, 1, 1⟩ 3 "Weekly" = some ([], none) :=
  ⟨C5_expansion_range_sorted.1 "Weekly" (Or.inr (Or.inl rfl)) ⟨2025, 1, 1⟩ ⟨2025, 1, 10⟩ 3
      [⟨⟨2025, 1, 1⟩, 3⟩, ⟨⟨2025, 1, 8⟩, 3⟩] none (by decide) (by decide) (by decide),
   C5_expansion_range_sorted.2 "Weekly" ⟨2025, 1, 10⟩ ⟨2025, 1, 1⟩ 3 (by decide)⟩

/-- C2 counterexample: the claim's list (ending in 2024-02-29) is not what
the Yearly expansion from 2020-02-29 produces. -/
theorem C2_yearly_leap_counterexample :
    generate_recurring_events ⟨2020, 2, 29⟩ ⟨2024, 12, 31⟩ (-50) "Yearly"
      ≠ some ([⟨⟨2020, 2, 29⟩, -50⟩, ⟨⟨2021, 2, 28⟩, -50⟩, ⟨⟨2022, 2, 28⟩, -50⟩,
               ⟨⟨2023, 2, 28⟩, -50⟩, ⟨⟨2024, 2, 29⟩, -50⟩], none) := by
  decide

/-- C2 (amended): the Yearly expansion from 2020-02-29 through 2024 emits
2020-02-29, 2021-02-28, 2022-02-28, 2023-02-28 and 2024-02-28: after the
first Feb-29 fallback the expansion stays on Feb 28 and does not return to
the leap day in 2024. -/
theorem C2_yearly_leap_expansion :
    generate_recurring_events ⟨2020, 2, 29⟩ ⟨2024, 12, 31⟩ (-50) "Yearly"
      = some ([⟨⟨2020, 2, 29⟩, -50⟩, ⟨⟨2021, 2, 28⟩, -50⟩, ⟨⟨2022, 2, 28⟩, -50⟩,
               ⟨⟨2023, 2, 28⟩, -50⟩, ⟨⟨2024, 2, 28⟩, -50⟩], none) := by
  decide

/-- C3 counterexample: Monthly expansion starting (and ending) on
2025-01-31 does not return normally: the loop raises ValueError when it
builds Feb 31. -/
theorem C3_monthly_overflow_counterexample :
    ¬ ((generate_recurring_events ⟨2025, 1, 31⟩ ⟨2025, 1, 31⟩ (-50) "Monthly").map Prod.snd
        = some none) := by
  decide

/-- C3 (amended): Daily, Weekly and Yearly expansions always return
normally with no error; Monthly returns normally whenever the start
day-of-month is at most 28.  (Monthly raises ValueError when the start
day-of-month does not exist in a later month, e.g. Jan 31.) -/
theorem C3_expansion_no_error (s e : Date) (amt : Int) (hs : s.valid) (he : e.valid) :
    (∀ freq, (freq = "Daily" ∨ freq = "Weekly" ∨ freq = "Yearly") →
        (generate_recurring_events s e amt freq).map Prod.snd = some none)
    ∧ (s.day ≤ 28 →
        (generate_recurring_events s e amt "Monthly").map Prod.snd = some none) := by
  have hfuel : e.ord + 1 - s.ord < genFuel s e := by
    unfold genFuel
    omega
  constructor
  · intro freq hf
    have hstep : ∀ c : Date, c.valid →
        ∃ next, advance freq c = some (Except.ok next) ∧ next.valid ∧ c < next := by
      intro c hc
      rcases hf with hf | hf | hf
      · subst hf
        exact ⟨nextDay c, advance_daily c, nextDay_valid hc, lt_nextDay hc⟩
      · subst hf
        exact ⟨addDays c 7, advance_weekly c, addDays_valid hc 7, lt_addDays_seven hc⟩
      · subst hf
        obtain ⟨next, hn, hv, hlt⟩ := advance_yearly c hc
        exact ⟨next, hn, hv, hlt⟩
    obtain ⟨ds, hds⟩ :=
      genAux_clean he (fun c => c.valid) (fun c hc => hc) hstep (genFuel s e) s hs hfuel
    unfold generate_recurring_events
    rw [hds]
    rfl
  · intro hday
    have hstep : ∀ c : Date, c.valid ∧ c.day ≤ 28 →
        ∃ next, advance "Monthly" c = some (Except.ok next)
          ∧ (next.valid ∧ next.day ≤ 28) ∧ c < next := by
      intro c hc
      obtain ⟨next, hn⟩ := advance_monthly_le28 hc.1 hc.2
      obtain ⟨hv, hlt, hd⟩ := advance_monthly_ok hc.1 hn
      exact ⟨next, hn, ⟨hv, by omega⟩, hlt⟩
    obtain ⟨ds, hds⟩ :=
      genAux_clean he (fun c => c.valid ∧ c.day ≤ 28) (fun c hc => hc.1) hstep
        (genFuel s e) s ⟨hs, hday⟩ hfuel
    unfold generate_recurring_events
    rw [hds]
    rfl

/-- Witness for C3 (amended): Daily over five days and Monthly from the
28th both return normally. -/
theorem C3_expansion_no_error_witness :
    (generate_recurring_events ⟨2025, 1, 1⟩ ⟨2025, 1, 5⟩ 7 "Daily").map Prod.snd = some none
    ∧ (generate_recurring_events ⟨2025, 1, 28⟩ ⟨2025, 3, 28⟩ 7 "Monthly").map Prod.snd
        = some none :=
  ⟨(C3_expansion_no_error ⟨2025, 1, 1⟩ ⟨2025, 1, 5⟩ 7 (by decide) (by decide)).1 "Daily"
      (Or.inl rfl),
   (C3_expansion_no_error ⟨2025, 1, 28⟩ ⟨2025, 3, 28⟩ 7 (by decide) (by decide)).2 (by decide)⟩

/-- C8: the spec's scenario.  The Monthly bill of -50 over
2025-01-01..2025-04-01 expands to exactly the four first-of-month events;
projecting from balance 100 gives balances 50, 0, -50, -100 on the four
bill dates, a minimum balance of -100, and the negative-balance flag. -/
theorem C8_scenario :
    generate_recurring_events ⟨2025, 1, 1⟩ ⟨2025, 4, 1⟩ (-50) "Monthly"
        = some (scenarioEvents, none)
    ∧ balanceOn (project_balance 100 scenarioEvents ⟨2025, 1, 1⟩ ⟨2025, 4, 1⟩) ⟨2025, 1, 1⟩
        = some 50
    ∧ balanceOn (project_balance 100 scenarioEvents ⟨2025, 1, 1⟩ ⟨2025, 4, 1⟩) ⟨2025, 2, 1⟩
        = some 0
    ∧ balanceOn (project_balance 100 scenarioEvents ⟨2025, 1, 1⟩ ⟨2025, 4, 1⟩) ⟨2025, 3, 1⟩
        = some (-50)
    ∧ balanceOn (project_balance 100 scenarioEvents ⟨2025, 1, 1⟩ ⟨2025, 4, 1⟩) ⟨2025, 4, 1⟩
        = some (-100)
    ∧ min_balance (project_balance 100 scenarioEvents ⟨2025, 1, 1⟩ ⟨2025, 4, 1⟩) = some (-100)
    ∧ negative_flag (project_balance 100 scenarioEvents ⟨2025, 1, 1⟩ ⟨2025, 4, 1⟩) = true := by
  decide

/-- C9: remove_declaration removes every entry of the collection whose
name equals the given value (remove-all, counted in multiset terms), keeps
all other entries, and is a no-op (with no error) when nothing matches. -/
theorem C9_remove_declaration (coll : List Declaration) (nm : String) :
    (∀ d : Declaration, (remove_declaration coll nm).count d
        = if d.name = nm then 0 else coll.count d)
    ∧ (∀ d ∈ remove_declaration coll nm, d.name ≠ nm)
    ∧ ((∀ d ∈ coll, d.name ≠ nm) → remove_declaration coll nm = coll) := by
  refine ⟨?_, ?_, ?_⟩
  · intro d
    induction coll with
    | nil => simp [remove_declaration]
    | cons c tl ih =>
      by_cases hc : c.name = nm
      · have hdrop : remove_declaration (c :: tl) nm = remove_declaration tl nm := by
          simp [remove_declaration, List.filter_cons, hc]
        rw [hdrop, ih]
        by_cases hdc : d = c
        · subst hdc
          simp [hc]
        · rw [List.count_cons_of_ne hdc]
      · have hkeep : remove_declaration (c :: tl) nm = c :: remove_declaration tl nm := by
          simp [remove_declaration, List.filter_cons, hc]
        rw [hkeep]
        by_cases hdc : d = c
        · subst hdc
          simp [hc, List.count_cons_self, ih]
        · rw [List.count_cons_of_ne hdc, List.count_cons_of_ne hdc, ih]
  · intro d hd
    have := List.of_mem_filter hd
    simpa using this
  · intro hall
    apply List.filter_eq_self.mpr
    intro a ha
    simpa using hall a ha

/-- Witness for C9: removing a name not present leaves the collection
unchanged affected only where the name matches. -/
theorem C9_remove_declaration_witness :
    (∀ d ∈ remove_declaration [⟨"rent", -50, "Monthly", ⟨2025, 1, 1⟩, ⟨2025, 4, 1⟩⟩] "rent",
        d.name ≠ "rent")
    ∧ ((∀ d ∈ ([⟨"rent", -50, "Monthly", ⟨2025, 1, 1⟩, ⟨2025, 4, 1⟩⟩] : List Declaration),
          d.name ≠ "food") →
        remove_declaration [⟨"rent", -50, "Monthly", ⟨2025, 1, 1⟩, ⟨2025, 4, 1⟩⟩] "food"
          = [⟨"rent", -50, "Monthly", ⟨2025, 1, 1⟩, ⟨2025, 4, 1⟩⟩]) :=
  ⟨(C9_remove_declaration [⟨"rent", -50, "Monthly", ⟨2025, 1, 1⟩, ⟨2025, 4, 1⟩⟩] "rent").2.1,
   (C9_remove_declaration [⟨"rent", -50, "Monthly", ⟨2025, 1, 1⟩, ⟨2025, 4, 1⟩⟩] "food").2.2⟩

/-- C10: every declaration stored in the bills collection through the add
boundary carries a non-positive amount: a positive entered amount with
type Bill is stored as its negation, and adding a bill preserves the
all-non-positive invariant of the bills collection. -/
theorem C10_bill_amount_nonpositive (bills income : List Declaration) (nm : String)
    (amount : Int) (freq : String) (sd ed : Date)
    (hinv : ∀ d ∈ bills, d.amount ≤ 0) :
    (∀ d ∈ (add_entry bills income "Bill (expense)" nm amount freq sd ed).1, d.amount ≤ 0)
    ∧ (0 < amount → coerce_amount "Bill (expense)" amount = -amount) := by
  constructor
  · intro d hd
    have hco : coerce_amount "Bill (expense)" amount ≤ 0 := by
      unfold coerce_amount
      split
      · rename_i hcond
        have := abs_nonneg amount
        omega
      · rename_i hcond
        simp only [true_and] at hcond
        omega
    unfold add_entry at hd
    rw [if_pos rfl] at hd
    rcases List.mem_append.mp hd with hmem | hmem
    · exact hinv d hmem
    · rcases List.mem_singleton.mp hmem with rfl
      exact hco
  · intro hpos
    unfold coerce_amount
    rw [if_pos ⟨rfl, hpos⟩, abs_of_pos hpos]

/-- Witness for C10: adding a bill entered with amount 5 to an empty store
keeps every stored bill non-positive, and 5 is stored as -5. -/
theorem C10_bill_amount_nonpositive_witness :
    (∀ d ∈ (add_entry [] [] "Bill (expense)" "rent" 5 "Monthly" ⟨2025, 1, 1⟩ ⟨2025, 6, 1⟩).1,
        d.amount ≤ 0)
    ∧ (0 < (5 : Int) → coerce_amount "Bill (expense)" 5 = -5) :=
  C10_bill_amount_nonpositive [] [] "rent" 5 "Monthly" ⟨2025, 1, 1⟩ ⟨2025, 6, 1⟩
    (by simp)
